import Mathlib

/-
Verification of exporter/splunkhecexporter/client.go.

The client is shallowly embedded as pure Lean functions. External effects
are supplied by oracles:
  * HttpO   - outcome of request construction and of each client.Do call
              (calls are numbered by the order they are issued in one push),
              and http.StatusText;
  * GzipO   - behaviour of a gzip writer: the compressed form of a byte
              sequence and whether Write/Close fail on it;
  * an encoder enc : alpha -> Except GoErr String standing for
    encoding/json's Marshal step inside Encoder.Encode.
Byte buffers are modelled as String (one Char per byte).  Each embedded
function also returns the trace of observable actions it performs (pool
borrow/return, gzip writer operations, HTTP posts, response-body handling,
WaitGroup bookkeeping), in program order, so that resource-discipline and
lifecycle claims are statements about the trace.
-/

namespace SplunkHec

/-- Go error values, identified by their message. -/
abbrev GoErr := String

/-- Error classification as done by the consumererror package: an error is
either wrapped by consumererror.Permanent or returned unwrapped (and hence
retryable/transient for the caller). -/
inductive CErr where
  | permanent (msg : GoErr)
  | transient (msg : GoErr)
  deriving DecidableEq, Repr

/-- Outcome of one http.Client.Do call: a transport-level failure, or a
response carrying a status code. -/
inductive DoResult where
  | netErr (msg : GoErr)
  | resp (status : Nat)
  deriving DecidableEq, Repr

/-- Oracle for the HTTP layer of one push: for the i-th request issued,
whether http.NewRequestWithContext fails, the outcome of client.Do, and
the http.StatusText table. -/
structure HttpO where
  reqErr : Nat → Option GoErr
  doRes : Nat → DoResult
  statusText : Nat → String

/-- Oracle for a gzip writer: `compress b` is the compressed stream
produced for input b (write then flush/close), `decompress` its inverse,
and writeErr/closeErr tell whether Write or Close fail on b. -/
structure GzipO where
  compress : String → String
  decompress : String → String
  writeErr : String → Option GoErr
  closeErr : String → Option GoErr

/-- Observable actions of the client, in program order. -/
inductive Action where
  | poolGet
  | poolPut
  | gzipReset
  | gzipWrite (data : String)
  | gzipFlush
  | gzipClose
  | post (body : String) (compressed : Bool)
  | drainBody
  | closeBody
  | wgAdd
  | wgDone
  deriving DecidableEq, Repr

/-- getReader (client.go:236-252): avoid attempting to compress things
that fit into a single ethernet frame.  Borrows a gzip writer from the
pool (returned by defer on every path), resets it, writes the whole
buffer and closes; on any gzip error the raw buffer and the error are
returned.  Result: (reader contents, compressed flag, error). -/
def getReader (gz : GzipO) (b : String) (disableCompression : Bool) :
    (String × Bool × Option GoErr) × List Action :=
  if !disableCompression && b.length > 1500 then
    match gz.writeErr b with
    | some e => ((b, false, some e), [.poolGet, .gzipReset, .gzipWrite b, .poolPut])
    | none =>
      match gz.closeErr b with
      | some e => ((b, false, some e),
          [.poolGet, .gzipReset, .gzipWrite b, .gzipClose, .poolPut])
      | none => ((gz.compress b, true, none),
          [.poolGet, .gzipReset, .gzipWrite b, .gzipClose, .poolPut])
  else ((b, false, none), [])

/-- The encoding loop shared by encodeBodyEvents and encodeBody
(client.go:209-233): for each event, json.Encoder.Encode writes the JSON
encoding of the event followed by a newline character (Go stdlib
behaviour of Encode), then the loop appends the literal separator; the
first failing event aborts the whole encode. -/
def encodeLoop (enc : α → Except GoErr String) (buf : String) :
    List α → Except GoErr String
  | [] => .ok buf
  | e :: es =>
    match enc e with
    | .error err => .error err
    | .ok s => encodeLoop enc (buf ++ s ++ "\n" ++ "\r\n\r\n") es

/-- encodeBodyEvents (client.go:209-220): serialize all events into one
buffer, then hand the buffer to getReader for the compression decision. -/
def encodeBodyEvents (gz : GzipO) (enc : α → Except GoErr String)
    (evs : List α) (disableCompression : Bool) :
    Except GoErr (String × Bool) × List Action :=
  match encodeLoop enc "" evs with
  | .error e => (.error e, [])
  | .ok buf =>
    match getReader gz buf disableCompression with
    | ((_, _, some e), tr) => (.error e, tr)
    | ((r, comp, none), tr) => (.ok (r, comp), tr)

/-- encodeBody (client.go:222-233): its body in the source is literally
identical to encodeBodyEvents (same loop, same separator, same call to
getReader), so it is embedded as the same function. -/
def encodeBody (gz : GzipO) (enc : α → Except GoErr String)
    (dps : List α) (disableCompression : Bool) :
    Except GoErr (String × Bool) × List Action :=
  encodeBodyEvents gz enc dps disableCompression

/-- The error message built for a non-2xx response
(fmt.Errorf with format HTTP %d %q); %q wraps the status text in double
quotes (standard status texts contain no character %q would escape). -/
def httpErrMsg (ho : HttpO) (code : Nat) : String :=
  "HTTP " ++ toString code ++ " \x22" ++ ho.statusText code ++ "\x22"

/-- postEvents (client.go:127-158) for the i-th request of a push: build
the request (Permanent error on failure), issue it (unwrapped transport
error on failure), always drain and close the response body, then accept
exactly the statuses in [200,300) (http.StatusOK,
http.StatusMultipleChoices); others yield the HTTP error message. -/
def postEvents (ho : HttpO) (i : Nat) (body : String) (compressed : Bool) :
    Option CErr × List Action :=
  match ho.reqErr i with
  | some e => (some (.permanent e), [])
  | none =>
    match ho.doRes i with
    | .netErr m => (some (.transient m), [.post body compressed])
    | .resp code =>
      if code < 200 || 300 ≤ code then
        (some (.transient (httpErrMsg ho code)),
          [.post body compressed, .drainBody, .closeBody])
      else (none, [.post body compressed, .drainBody, .closeBody])

/-- pushMetricsData (client.go:48-96).  The converter metricDataToSplunk
is external: its outputs (the data points dps and the pre-dropped count)
and md's total point count numMetricPoint are parameters.  The body
inlines request construction, Do, drain/close and the 2xx check exactly
as the source does. -/
def pushMetricsData (ho : HttpO) (gz : GzipO) (enc : α → Except GoErr String)
    (disableCompression : Bool) (dps : List α)
    (numDroppedTimeseries numMetricPoint : Nat) :
    (Nat × Option CErr) × List Action :=
  if dps.isEmpty then ((numDroppedTimeseries, none), [.wgAdd, .wgDone])
  else
    match encodeBody gz enc dps disableCompression with
    | (.error e, tr) =>
        ((numMetricPoint, some (.permanent e)), .wgAdd :: tr ++ [.wgDone])
    | (.ok (body, compressed), tr) =>
      match ho.reqErr 0 with
      | some e =>
          ((numMetricPoint, some (.permanent e)), .wgAdd :: tr ++ [.wgDone])
      | none =>
        match ho.doRes 0 with
        | .netErr m =>
            ((numMetricPoint, some (.transient m)),
              .wgAdd :: tr ++ [.post body compressed, .wgDone])
        | .resp code =>
          if code < 200 || 300 ≤ code then
            ((numMetricPoint, some (.transient (httpErrMsg ho code))),
              .wgAdd :: tr ++ [.post body compressed, .drainBody, .closeBody, .wgDone])
          else
            ((numDroppedTimeseries, none),
              .wgAdd :: tr ++ [.post body compressed, .drainBody, .closeBody, .wgDone])

/-- sendSplunkEvents (client.go:118-125): encode, wrapping an encode
error as Permanent, then postEvents. -/
def sendSplunkEvents (ho : HttpO) (gz : GzipO) (enc : α → Except GoErr String)
    (i : Nat) (evs : List α) (disableCompression : Bool) :
    Option CErr × List Action :=
  match encodeBodyEvents gz enc evs disableCompression with
  | (.error e, tr) => (some (.permanent e), tr)
  | (.ok (body, compressed), tr) =>
    let pr := postEvents ho i body compressed
    (pr.1, tr ++ pr.2)

/-- pushTraceData (client.go:98-116).  The converter traceDataToSplunk is
external: the events, the pre-dropped span count and td.SpanCount() are
parameters. -/
def pushTraceData (ho : HttpO) (gz : GzipO) (enc : α → Except GoErr String)
    (disableCompression : Bool) (evs : List α)
    (numDroppedSpans spanCount : Nat) :
    (Nat × Option CErr) × List Action :=
  if evs.isEmpty then ((numDroppedSpans, none), [.wgAdd, .wgDone])
  else
    let sr := sendSplunkEvents ho gz enc 0 evs disableCompression
    match sr.1 with
    | some e => ((spanCount, some e), .wgAdd :: sr.2 ++ [.wgDone])
    | none => ((numDroppedSpans, none), .wgAdd :: sr.2 ++ [.wgDone])

/-- One chunk as delivered over the channel by logDataWrapper.chunkEvents
(external to src/): its ordinal index into the original logs, an optional
terminal encoding error, and the encoded buffer. -/
structure LogChunk where
  index : Nat
  err : Option GoErr
  buf : String
  deriving DecidableEq, Repr

/-- The error returned by pushLogData: the chunk's own terminal error
returned as-is, a Permanent gzip-write error, or
consumererror.PartialLogsError pairing the transmission error with the
undelivered sub-batch (here of type beta, produced by logs.subLogs). -/
inductive LogErr (β : Type) where
  | chunkErr (msg : GoErr)
  | permanent (msg : GoErr)
  | remainder (e : CErr) (rest : β)
  deriving DecidableEq, Repr

/-- The chunk loop of pushLogData (client.go:175-204), with i the number
of postEvents calls already issued and numLogs/subLogs the (external)
accessors of the original logs.  A chunk error returns immediately;
empty chunks are skipped; small-or-uncompressed chunks are posted raw; a
large chunk is written to the shared gzip writer (Permanent error on
write failure), flushed and posted compressed, after which buffer and
writer are reset.  Any postEvents error returns
PartialLogsError(err, subLogs(chunk.index)) with numLogs(chunk.index). -/
def pushLogLoop (ho : HttpO) (gz : GzipO) (disableCompression : Bool)
    (numLogs : Nat → Nat) (subLogs : Nat → β) (i : Nat) :
    List LogChunk → (Nat × Option (LogErr β)) × List Action
  | [] => ((0, none), [])
  | c :: rest =>
    match c.err with
    | some e => ((numLogs c.index, some (.chunkErr e)), [])
    | none =>
      if c.buf.length = 0 then
        pushLogLoop ho gz disableCompression numLogs subLogs i rest
      else if c.buf.length ≤ 1500 || disableCompression then
        match postEvents ho i c.buf false with
        | (some e, tr) =>
            ((numLogs c.index, some (.remainder e (subLogs c.index))), tr)
        | (none, tr) =>
          let r := pushLogLoop ho gz disableCompression numLogs subLogs (i + 1) rest
          (r.1, tr ++ r.2)
      else
        match gz.writeErr c.buf with
        | some e => ((numLogs c.index, some (.permanent e)), [.gzipWrite c.buf])
        | none =>
          match postEvents ho i (gz.compress c.buf) true with
          | (some e, tr) =>
              ((numLogs c.index, some (.remainder e (subLogs c.index))),
                .gzipWrite c.buf :: .gzipFlush :: tr)
          | (none, tr) =>
            let r := pushLogLoop ho gz disableCompression numLogs subLogs (i + 1) rest
            (r.1, .gzipWrite c.buf :: .gzipFlush :: tr ++ [.gzipReset] ++ r.2)

/-- pushLogData (client.go:160-207): register with the WaitGroup, borrow
a gzip writer from the pool and reset it onto the chunk buffer, run the
chunk loop, then (deferred, in LIFO order) close the writer, return it to
the pool and signal the WaitGroup.  The chunk sequence produced by
chunkEvents is a parameter. -/
def pushLogData (ho : HttpO) (gz : GzipO) (disableCompression : Bool)
    (numLogs : Nat → Nat) (subLogs : Nat → β) (chunks : List LogChunk) :
    (Nat × Option (LogErr β)) × List Action :=
  let r := pushLogLoop ho gz disableCompression numLogs subLogs 0 chunks
  (r.1, [.wgAdd, .poolGet, .gzipReset] ++ r.2 ++ [.gzipClose, .poolPut, .wgDone])

/-- start (client.go:259-261): does nothing and returns nil. -/
def start : Option GoErr := none

/-- The WaitGroup events relevant to the lifecycle: a push starting
(wg.Add(1)), a push finishing (deferred wg.Done()), and a stop call
returning (c.wg.Wait() unblocking, client.go:254-257). -/
inductive LifeEvt where
  | pushBegin
  | pushEnd
  | stopReturn
  deriving DecidableEq, Repr

/-- Acceptance of a lifecycle trace starting from in-flight count n:
pushBegin increments, pushEnd decrements (never below zero), and
stopReturn is possible exactly when the count is zero — the semantics of
sync.WaitGroup.Wait, which blocks until the counter reaches zero. -/
def runLife : Nat → List LifeEvt → Bool
  | _, [] => true
  | n, .pushBegin :: tr => runLife (n + 1) tr
  | n + 1, .pushEnd :: tr => runLife n tr
  | 0, .pushEnd :: _ => false
  | n, .stopReturn :: tr => n == 0 && runLife n tr

/-- The in-flight count after a lifecycle trace. -/
def lifeAfter : Nat → List LifeEvt → Nat
  | n, [] => n
  | n, .pushBegin :: tr => lifeAfter (n + 1) tr
  | n, .pushEnd :: tr => lifeAfter (n - 1) tr
  | n, .stopReturn :: tr => lifeAfter n tr

/-- Modelled from the spec: logDataWrapper.numLogs lives in
logdata_to_splunk.go, which is not under src/.  Per the spec the dropped
count reported for a failure at chunk `index` is the number of log
records from that chunk onward; with rss the partition of the batch's
records into chunks, that is the length of the suffix from chunk `index`. -/
def specNumLogs (rss : List (List α)) (index : Nat) : Nat :=
  ((rss.drop index).flatten).length

/-- Modelled from the spec: logDataWrapper.subLogs lives in
logdata_to_splunk.go, which is not under src/.  Per the spec the carried
sub-batch for a failure at chunk `index` holds exactly the records from
chunk `index` through the last chunk. -/
def specSubLogs (rss : List (List α)) (index : Nat) : List α :=
  (rss.drop index).flatten

/-- Error-free chunks with consecutive indices starting at j, one per
buffer. -/
def chunksFrom (j : Nat) : List String → List LogChunk
  | [] => []
  | b :: bs => ⟨j, none, b⟩ :: chunksFrom (j + 1) bs

/-- The POST calls recorded in a trace: (body, compressed) per request
actually issued. -/
def postCalls (tr : List Action) : List (String × Bool) :=
  tr.filterMap fun a =>
    match a with
    | .post b c => some (b, c)
    | _ => none

/-- The body pushLogData actually sends for a chunk buffer, per the
compression decision of client.go:185. -/
def sentBody (gz : GzipO) (disableCompression : Bool) (b : String) : String :=
  if b.length ≤ 1500 || disableCompression then b else gz.compress b

/-- Whether pushLogData sends a chunk buffer compressed
(client.go:185). -/
def sentComp (disableCompression : Bool) (b : String) : Bool :=
  !(b.length ≤ 1500 || disableCompression)

/-- The error value a postEvents call would produce; it depends only on
the transport oracle and the call number, never on the body. -/
def postOutcome (ho : HttpO) (i : Nat) : Option CErr :=
  (postEvents ho i "" false).1

/-- A transport oracle whose every request succeeds with status 200. -/
def hoOkAll : HttpO :=
  ⟨fun _ => none, fun _ => .resp 200, fun _ => "OK"⟩

/-- A transport oracle whose first request succeeds and whose later
requests fail with status 500. -/
def hoFailLater : HttpO :=
  ⟨fun _ => none, fun i => if i = 0 then .resp 200 else .resp 500,
    fun c => if c = 500 then "Internal Server Error" else "OK"⟩

/-- A gzip oracle that never fails; compression prepends a marker byte so
that compressed and raw bodies are distinguishable and decompression is a
strict inverse. -/
def gzTest : GzipO :=
  ⟨fun s => "G" ++ s, fun s => String.mk (s.data.drop 1),
    fun _ => none, fun _ => none⟩

/-- A 1501-byte test body (just above the single-ethernet-frame bound). -/
def bigB : String := String.mk (List.replicate 1501 'x')

/-- A 1500-byte test body (exactly one ethernet frame). -/
def smallB : String := String.mk (List.replicate 1500 'x')

/-- The byte sequence of the separator written after each encoded event
(client.go:217). -/
def sepChars : List Char := ['\r', '\n', '\r', '\n']

/-- Modelled from the spec: the decoder's splitting step — cut the body
at every occurrence of the two-CRLF separator (leftmost-first). -/
def splitOnSep : List Char → List (List Char)
  | [] => [[]]
  | '\r' :: '\n' :: '\r' :: '\n' :: rest => [] :: splitOnSep rest
  | c :: rest =>
    match splitOnSep rest with
    | [] => [[c]]
    | s :: ss => (c :: s) :: ss

/-- The byte layout the encoding loop produces for a pure serializer js:
per event, the JSON bytes, the newline json.Encoder.Encode appends, then
the separator. -/
def segsBody (js : α → String) (evs : List α) : List Char :=
  (evs.map fun e => (js e).data ++ '\n' :: sepChars).flatten

/-- Modelled from the spec: the decoding procedure — split the
(uncompressed) body on the separator, drop the empty piece after the
final separator, and parse each piece as one JSON document (dec is the
parser). -/
def specDecode (dec : String → Option α) (body : String) : List α :=
  ((splitOnSep body.data).dropLast).filterMap fun seg => dec (String.mk seg)

theorem postEvents_fst_eq_postOutcome (ho : HttpO) (i : Nat) (b : String)
    (c : Bool) : (postEvents ho i b c).1 = postOutcome ho i := by
  unfold postOutcome postEvents
  cases ho.reqErr i <;> simp
  cases ho.doRes i <;> simp
  split <;> simp

/-- C10: a metrics or traces push whose conversion yields zero events
returns the converter's pre-dropped count with no error, and its trace
holds no encoding, compression or transport action — only the WaitGroup
bookkeeping. -/
theorem emptyBatchReturnsPreDroppedNoRequest (ho : HttpO) (gz : GzipO)
    (enc : α → Except GoErr String) (dis : Bool) (nd nm nds sc : Nat) :
    pushMetricsData ho gz enc dis ([] : List α) nd nm
        = ((nd, none), [.wgAdd, .wgDone]) ∧
    pushTraceData ho gz enc dis ([] : List α) nds sc
        = ((nds, none), [.wgAdd, .wgDone]) :=
  ⟨rfl, rfl⟩

/-- C5: once a response is received, the outcome is success exactly when
the status code lies in [200,300); any other status produces the
unwrapped error whose message is exactly HTTP <code> "<status text>". -/
theorem statusClassification (ho : HttpO) (i : Nat) (b : String)
    (c : Bool) (code : Nat) (hreq : ho.reqErr i = none)
    (hdo : ho.doRes i = .resp code) :
    ((postEvents ho i b c).1 = none ↔ 200 ≤ code ∧ code < 300) ∧
    (code < 200 ∨ 300 ≤ code →
      (postEvents ho i b c).1 =
        some (.transient ("HTTP " ++ toString code ++ " \x22" ++
          ho.statusText code ++ "\x22"))) := by
  have hpe : postEvents ho i b c =
      (if code < 200 || 300 ≤ code then
          some (.transient (httpErrMsg ho code))
        else none,
        [.post b c, .drainBody, .closeBody]) := by
    unfold postEvents
    simp only [hreq, hdo]
    split <;> rfl
  rw [hpe]
  simp only [httpErrMsg]
  constructor
  · split
    · next h =>
      rw [Bool.or_eq_true, decide_eq_true_eq, decide_eq_true_eq] at h
      simp only [reduceCtorEq, false_iff, not_and, not_lt]
      intro h2
      omega
    · next h =>
      rw [Bool.or_eq_true, decide_eq_true_eq, decide_eq_true_eq] at h
      push_neg at h
      simp only [true_iff]
      omega
  · intro h
    split
    · rfl
    · next h2 =>
      rw [Bool.or_eq_true, decide_eq_true_eq, decide_eq_true_eq] at h2
      exact absurd h h2

theorem statusClassificationWitness :
    ((postEvents hoFailLater 1 "" false).1 = none ↔ 200 ≤ 500 ∧ 500 < 300) ∧
    (500 < 200 ∨ 300 ≤ 500 →
      (postEvents hoFailLater 1 "" false).1 =
        some (.transient ("HTTP " ++ toString 500 ++ " \x22" ++
          hoFailLater.statusText 500 ++ "\x22"))) :=
  statusClassification hoFailLater 1 "" false 500 rfl rfl

/-- C8: whenever the HTTP call completes with a response, the client
drains and then closes the response body before anything else happens and
before returning, whatever the status code — both in postEvents and in
the inlined transport of pushMetricsData. -/
theorem responseBodyAlwaysDrained (ho : HttpO) (code : Nat) :
    (∀ i b c, ho.reqErr i = none → ho.doRes i = .resp code →
      (postEvents ho i b c).2 = [.post b c, .drainBody, .closeBody]) ∧
    (∀ (gz : GzipO) (enc : α → Except GoErr String) (dis : Bool)
      (dps : List α) (nd nm : Nat) (body : String) (comp : Bool)
      (tr : List Action),
      dps.isEmpty = false →
      encodeBody gz enc dps dis = (.ok (body, comp), tr) →
      ho.reqErr 0 = none → ho.doRes 0 = .resp code →
      (pushMetricsData ho gz enc dis dps nd nm).2 =
        .wgAdd :: tr ++ [.post body comp, .drainBody, .closeBody, .wgDone]) := by
  constructor
  · intro i b c hreq hdo
    unfold postEvents
    simp only [hreq, hdo]
    split <;> rfl
  · intro gz enc dis dps nd nm body comp tr hne henc hreq hdo
    unfold pushMetricsData
    simp only [hne, henc, hreq, hdo, Bool.false_eq_true, if_false]
    split <;> rfl

theorem responseBodyAlwaysDrainedWitness :
    (postEvents hoOkAll 0 "b" false).2 =
      [.post "b" false, .drainBody, .closeBody] :=
  (@responseBodyAlwaysDrained String hoOkAll 200).1 0 "b" false rfl rfl

theorem postEvents_eq_reqErr (ho : HttpO) (i : Nat) (b : String) (c : Bool)
    (e : GoErr) (hreq : ho.reqErr i = some e) :
    postEvents ho i b c = (some (.permanent e), []) := by
  unfold postEvents
  simp only [hreq]

theorem postEvents_eq_netErr (ho : HttpO) (i : Nat) (b : String) (c : Bool)
    (m : GoErr) (hreq : ho.reqErr i = none) (hdo : ho.doRes i = .netErr m) :
    postEvents ho i b c = (some (.transient m), [.post b c]) := by
  unfold postEvents
  simp only [hreq, hdo]

theorem postEvents_eq_resp (ho : HttpO) (i : Nat) (b : String) (c : Bool)
    (code : Nat) (hreq : ho.reqErr i = none) (hdo : ho.doRes i = .resp code) :
    postEvents ho i b c =
      (if (decide (code < 200) || decide (300 ≤ code)) = true then
          some (.transient (httpErrMsg ho code))
        else none,
        [.post b c, .drainBody, .closeBody]) := by
  unfold postEvents
  simp only [hreq, hdo]
  split <;> rfl

theorem postCalls_append (l1 l2 : List Action) :
    postCalls (l1 ++ l2) = postCalls l1 ++ postCalls l2 := by
  unfold postCalls
  exact List.filterMap_append ..

theorem postCalls_postEvents_of_reqOk (ho : HttpO) (i : Nat) (b : String)
    (c : Bool) (hreq : ho.reqErr i = none) :
    postCalls (postEvents ho i b c).2 = [(b, c)] := by
  cases hdo : ho.doRes i with
  | netErr m =>
    rw [postEvents_eq_netErr ho i b c m hreq hdo]
    rfl
  | resp code =>
    rw [postEvents_eq_resp ho i b c code hreq hdo]
    rfl

theorem postCalls_postEvents_cases (ho : HttpO) (i : Nat) (b : String)
    (c : Bool) :
    postCalls (postEvents ho i b c).2 = [] ∨
      postCalls (postEvents ho i b c).2 = [(b, c)] := by
  cases hreq : ho.reqErr i with
  | some e =>
    left
    rw [postEvents_eq_reqErr ho i b c e hreq]
    rfl
  | none => exact Or.inr (postCalls_postEvents_of_reqOk ho i b c hreq)

theorem postEvents_snd_of_none (ho : HttpO) (i : Nat) (b : String) (c : Bool)
    (h : (postEvents ho i b c).1 = none) :
    (postEvents ho i b c).2 = [.post b c, .drainBody, .closeBody] := by
  cases hreq : ho.reqErr i with
  | some e =>
    rw [postEvents_eq_reqErr ho i b c e hreq] at h
    simp at h
  | none =>
    cases hdo : ho.doRes i with
    | netErr m =>
      rw [postEvents_eq_netErr ho i b c m hreq hdo] at h
      simp at h
    | resp code =>
      rw [postEvents_eq_resp ho i b c code hreq hdo]

theorem pushLogLoop_cons_ok {β : Type} (ho : HttpO) (gz : GzipO) (dis : Bool)
    (nl : Nat → Nat) (sl : Nat → β) (i j : Nat) (b : String)
    (rest : List LogChunk) (hb : ¬ b.length = 0)
    (hw : ¬ (decide (b.length ≤ 1500) || dis) = true →
      gz.writeErr b = none) :
    pushLogLoop ho gz dis nl sl i (⟨j, none, b⟩ :: rest) =
      match postEvents ho i (sentBody gz dis b) (sentComp dis b) with
      | (some e, tr) =>
        ((nl j, some (.remainder e (sl j))),
          (if sentComp dis b then [.gzipWrite b, .gzipFlush] else []) ++ tr)
      | (none, tr) =>
        ((pushLogLoop ho gz dis nl sl (i + 1) rest).1,
          (if sentComp dis b then [.gzipWrite b, .gzipFlush] else []) ++ tr ++
          (if sentComp dis b then [.gzipReset] else []) ++
          (pushLogLoop ho gz dis nl sl (i + 1) rest).2) := by
  by_cases hcomp : (decide (b.length ≤ 1500) || dis) = true
  · have hsc : sentComp dis b = false := by
      unfold sentComp
      rw [hcomp]
      rfl
    have hsb : sentBody gz dis b = b := by
      unfold sentBody
      rw [if_pos hcomp]
    rw [hsc, hsb]
    simp only [pushLogLoop, hb, if_false, if_pos hcomp, Bool.false_eq_true,
      List.nil_append]
    rcases hpe : postEvents ho i b false with ⟨r, tr⟩
    cases r <;> simp
  · have hsc : sentComp dis b = true := by
      unfold sentComp
      simp only [Bool.not_eq_true] at hcomp
      rw [hcomp]
      rfl
    have hsb : sentBody gz dis b = gz.compress b := by
      unfold sentBody
      rw [if_neg hcomp]
    rw [hsc, hsb]
    simp only [pushLogLoop, hb, if_false, if_neg hcomp, hw hcomp, if_true,
      List.nil_append]
    rcases hpe : postEvents ho i (gz.compress b) true with ⟨r, tr⟩
    cases r <;> simp

theorem mem_postCalls_pushLogLoop {β : Type} (ho : HttpO) (gz : GzipO)
    (dis : Bool) (nl : Nat → Nat) (sl : Nat → β) :
    ∀ (chunks : List LogChunk) (i : Nat) (bd : String) (cp : Bool),
      (bd, cp) ∈ postCalls (pushLogLoop ho gz dis nl sl i chunks).2 →
      ∃ c ∈ chunks, c.err = none ∧ ¬ c.buf.length = 0 ∧
        cp = sentComp dis c.buf ∧ bd = sentBody gz dis c.buf
  | [], i, bd, cp => by
    intro h
    simp [pushLogLoop, postCalls] at h
  | c :: rest, i, bd, cp => by
    intro h
    rcases c with ⟨cj, cerr, cb⟩
    cases cerr with
    | some e =>
      simp [pushLogLoop, postCalls] at h
    | none =>
      by_cases hcb : cb.length = 0
      · rw [show pushLogLoop ho gz dis nl sl i (⟨cj, none, cb⟩ :: rest)
              = pushLogLoop ho gz dis nl sl i rest by
            simp [pushLogLoop, hcb]] at h
        obtain ⟨c2, hc2, hrest⟩ := mem_postCalls_pushLogLoop ho gz dis nl sl
          rest i bd cp h
        exact ⟨c2, List.mem_cons_of_mem _ hc2, hrest⟩
      · by_cases hw : ¬ (decide (cb.length ≤ 1500) || dis) = true →
            gz.writeErr cb = none
        · rw [pushLogLoop_cons_ok ho gz dis nl sl i cj cb rest hcb hw] at h
          rcases hpe : postEvents ho i (sentBody gz dis cb) (sentComp dis cb)
            with ⟨r, tr⟩
          rw [hpe] at h
          have htr : ∀ x ∈ postCalls tr,
              x = (sentBody gz dis cb, sentComp dis cb) := by
            intro x hx
            rcases postCalls_postEvents_cases ho i (sentBody gz dis cb)
              (sentComp dis cb) with hc | hc <;> rw [hpe] at hc <;>
              simp only [hc, List.not_mem_nil, List.mem_singleton] at hx
            · exact hx
          have hgzpre : postCalls
              (if sentComp dis cb then [.gzipWrite cb, .gzipFlush] else [])
              = [] := by
            split <;> simp [postCalls]
          have hgzpost : postCalls
              (if sentComp dis cb then ([.gzipReset] : List Action) else [])
              = [] := by
            split <;> simp [postCalls]
          cases r with
          | some e =>
            simp only [postCalls_append, hgzpre, List.nil_append] at h
            obtain ⟨h1, h2⟩ := Prod.mk.injEq .. ▸ htr _ h
            exact ⟨⟨cj, none, cb⟩, List.mem_cons_self .., rfl, hcb,
              h2.symm ▸ rfl, h1.symm ▸ rfl⟩
          | none =>
            simp only [postCalls_append, hgzpre, hgzpost, List.nil_append,
              List.append_nil] at h
            rcases List.mem_append.mp h with hx | hx
            · obtain ⟨h1, h2⟩ := Prod.mk.injEq .. ▸ htr _ hx
              exact ⟨⟨cj, none, cb⟩, List.mem_cons_self .., rfl, hcb,
                h2.symm ▸ rfl, h1.symm ▸ rfl⟩
            · obtain ⟨c2, hc2, hrest⟩ := mem_postCalls_pushLogLoop ho gz dis
                nl sl rest (i + 1) bd cp hx
              exact ⟨c2, List.mem_cons_of_mem _ hc2, hrest⟩
        · push_neg at hw
          obtain ⟨hcomp, hwne⟩ := hw
          rcases hwe : gz.writeErr cb with _ | e2
          · exact absurd hwe hwne
          · rw [show pushLogLoop ho gz dis nl sl i (⟨cj, none, cb⟩ :: rest)
                = ((nl cj, some (.permanent e2)), [.gzipWrite cb]) by
              simp only [pushLogLoop]
              rw [if_neg hcb, if_neg hcomp, hwe]] at h
            simp [postCalls] at h

theorem sentComp_eq (dis : Bool) (s : String) :
    sentComp dis s = (!dis && decide (s.length > 1500)) := by
  unfold sentComp
  by_cases hs : s.length ≤ 1500
  · simp [hs, Nat.not_lt.mpr hs]
  · simp [hs, Nat.lt_of_not_le hs]

/-- C2: the compression decision — a wire body is compressed exactly when
compression is enabled and the body exceeds 1500 bytes; a 1500-byte body
is never compressed, a 1501-byte body is compressed when enabled; what is
sent is always either the entire raw buffer or the gzip of the entire
buffer, both in getReader (metrics/traces) and per chunk in the logs
loop. -/
theorem compressionDecision (gz : GzipO) (b : String) (dis : Bool)
    (hw : gz.writeErr b = none) (hc : gz.closeErr b = none) :
    ((getReader gz b dis).1.2.1 = (!dis && decide (b.length > 1500))) ∧
    ((getReader gz b dis).1.1 =
      if (!dis && decide (b.length > 1500)) = true then gz.compress b else b) ∧
    ((getReader gz b dis).1.2.2 = none) ∧
    (b.length = 1500 → (getReader gz b dis).1.2.1 = false) ∧
    (b.length = 1501 → dis = false → (getReader gz b dis).1.2.1 = true) ∧
    (∀ s : String, sentComp dis s = (!dis && decide (s.length > 1500))) ∧
    (∀ {β : Type} (ho : HttpO) (nl : Nat → Nat) (sl : Nat → β) (i : Nat)
      (chunks : List LogChunk) (bd : String) (cp : Bool),
      (bd, cp) ∈ postCalls (pushLogLoop ho gz dis nl sl i chunks).2 →
      ∃ c ∈ chunks, cp = sentComp dis c.buf ∧ bd = sentBody gz dis c.buf) := by
  have hg : getReader gz b dis =
      if (!dis && decide (b.length > 1500)) = true then
        ((gz.compress b, true, none),
          [.poolGet, .gzipReset, .gzipWrite b, .gzipClose, .poolPut])
      else ((b, false, none), []) := by
    by_cases hcond : (!dis && decide (b.length > 1500)) = true
    · rw [if_pos hcond]
      unfold getReader
      rw [if_pos hcond]
      simp only [hw, hc]
    · rw [if_neg hcond]
      unfold getReader
      rw [if_neg hcond]
  by_cases hcond : (!dis && decide (b.length > 1500)) = true
  · rw [hg, if_pos hcond]
    refine ⟨by rw [hcond], by rw [if_pos hcond], rfl, ?_, fun _ _ => rfl,
      sentComp_eq dis, ?_⟩
    · intro h1500
      rw [h1500] at hcond
      simp at hcond
    · intro β ho nl sl i chunks bd cp hmem
      obtain ⟨c2, hc2, _, _, h1, h2⟩ :=
        mem_postCalls_pushLogLoop ho gz dis nl sl chunks i bd cp hmem
      exact ⟨c2, hc2, h1, h2⟩
  · have hfalse : (!dis && decide (b.length > 1500)) = false :=
      Bool.eq_false_iff.mpr hcond
    rw [hg, if_neg hcond]
    refine ⟨by rw [hfalse], by rw [if_neg hcond], rfl, fun _ => rfl, ?_,
      sentComp_eq dis, ?_⟩
    · intro h1501 hdis
      exfalso
      apply hcond
      rw [h1501, hdis]
      rfl
    · intro β ho nl sl i chunks bd cp hmem
      obtain ⟨c2, hc2, _, _, h1, h2⟩ :=
        mem_postCalls_pushLogLoop ho gz dis nl sl chunks i bd cp hmem
      exact ⟨c2, hc2, h1, h2⟩

set_option maxRecDepth 8000 in
theorem compressionDecisionWitness :
    (getReader gzTest bigB false).1.2.1 = true ∧
    (getReader gzTest smallB false).1.2.1 = false :=
  ⟨(compressionDecision gzTest bigB false rfl rfl).2.2.2.2.1 (by rfl) rfl,
    (compressionDecision gzTest smallB false rfl rfl).2.2.2.1 (by rfl)⟩

/-- C4: outcome classification of the whole-batch pushes — an encoding or
request-construction failure reports the full original count (all data
points, all spans) with a Permanent error; a network failure or a non-2xx
status reports the full count with an unwrapped (retryable) error; a 2xx
response reports exactly the converter's pre-dropped count with no
error.  Stated for pushMetricsData and pushTraceData. -/
theorem pushClassification (ho : HttpO) (gz : GzipO)
    (enc : α → Except GoErr String) (dis : Bool) (dps evs : List α)
    (nd nm nds sc : Nat) (hdps : dps.isEmpty = false)
    (hevs : evs.isEmpty = false) :
    (∀ e tr, encodeBody gz enc dps dis = (.error e, tr) →
      (pushMetricsData ho gz enc dis dps nd nm).1 =
        (nm, some (.permanent e))) ∧
    (∀ body comp tr e, encodeBody gz enc dps dis = (.ok (body, comp), tr) →
      ho.reqErr 0 = some e →
      (pushMetricsData ho gz enc dis dps nd nm).1 =
        (nm, some (.permanent e))) ∧
    (∀ body comp tr m, encodeBody gz enc dps dis = (.ok (body, comp), tr) →
      ho.reqErr 0 = none → ho.doRes 0 = .netErr m →
      (pushMetricsData ho gz enc dis dps nd nm).1 =
        (nm, some (.transient m))) ∧
    (∀ body comp tr code, encodeBody gz enc dps dis = (.ok (body, comp), tr) →
      ho.reqErr 0 = none → ho.doRes 0 = .resp code →
      code < 200 ∨ 300 ≤ code →
      (pushMetricsData ho gz enc dis dps nd nm).1 =
        (nm, some (.transient (httpErrMsg ho code)))) ∧
    (∀ body comp tr code, encodeBody gz enc dps dis = (.ok (body, comp), tr) →
      ho.reqErr 0 = none → ho.doRes 0 = .resp code →
      200 ≤ code → code < 300 →
      (pushMetricsData ho gz enc dis dps nd nm).1 = (nd, none)) ∧
    (∀ e tr, encodeBodyEvents gz enc evs dis = (.error e, tr) →
      (pushTraceData ho gz enc dis evs nds sc).1 =
        (sc, some (.permanent e))) ∧
    (∀ body comp tr e,
      encodeBodyEvents gz enc evs dis = (.ok (body, comp), tr) →
      ho.reqErr 0 = some e →
      (pushTraceData ho gz enc dis evs nds sc).1 =
        (sc, some (.permanent e))) ∧
    (∀ body comp tr m,
      encodeBodyEvents gz enc evs dis = (.ok (body, comp), tr) →
      ho.reqErr 0 = none → ho.doRes 0 = .netErr m →
      (pushTraceData ho gz enc dis evs nds sc).1 =
        (sc, some (.transient m))) ∧
    (∀ body comp tr code,
      encodeBodyEvents gz enc evs dis = (.ok (body, comp), tr) →
      ho.reqErr 0 = none → ho.doRes 0 = .resp code →
      code < 200 ∨ 300 ≤ code →
      (pushTraceData ho gz enc dis evs nds sc).1 =
        (sc, some (.transient (httpErrMsg ho code)))) ∧
    (∀ body comp tr code,
      encodeBodyEvents gz enc evs dis = (.ok (body, comp), tr) →
      ho.reqErr 0 = none → ho.doRes 0 = .resp code →
      200 ≤ code → code < 300 →
      (pushTraceData ho gz enc dis evs nds sc).1 = (nds, none)) := by
  refine ⟨?_, ?_, ?_, ?_, ?_, ?_, ?_, ?_, ?_, ?_⟩
  · intro e tr henc
    unfold pushMetricsData
    simp only [hdps, Bool.false_eq_true, if_false, henc]
  · intro body comp tr e henc hreq
    unfold pushMetricsData
    simp only [hdps, Bool.false_eq_true, if_false, henc, hreq]
  · intro body comp tr m henc hreq hdo
    unfold pushMetricsData
    simp only [hdps, Bool.false_eq_true, if_false, henc, hreq, hdo]
  · intro body comp tr code henc hreq hdo hbad
    have hcond : (decide (code < 200) || decide (300 ≤ code)) = true := by
      rcases hbad with h | h <;> simp [h]
    unfold pushMetricsData
    simp only [hdps, Bool.false_eq_true, if_false, henc, hreq, hdo]
    rw [if_pos hcond]
  · intro body comp tr code henc hreq hdo h200 h300
    have hcond : ¬ (decide (code < 200) || decide (300 ≤ code)) = true := by
      simp
      omega
    unfold pushMetricsData
    simp only [hdps, Bool.false_eq_true, if_false, henc, hreq, hdo]
    rw [if_neg hcond]
  · intro e tr henc
    have hs1 : (sendSplunkEvents ho gz enc 0 evs dis).1 =
        some (.permanent e) := by
      unfold sendSplunkEvents
      simp only [henc]
    unfold pushTraceData
    simp only [hevs, Bool.false_eq_true, if_false, hs1]
  · intro body comp tr e henc hreq
    have hs1 : (sendSplunkEvents ho gz enc 0 evs dis).1 =
        some (.permanent e) := by
      unfold sendSplunkEvents
      simp only [henc]
      rw [postEvents_eq_reqErr ho 0 body comp e hreq]
    unfold pushTraceData
    simp only [hevs, Bool.false_eq_true, if_false, hs1]
  · intro body comp tr m henc hreq hdo
    have hs1 : (sendSplunkEvents ho gz enc 0 evs dis).1 =
        some (.transient m) := by
      unfold sendSplunkEvents
      simp only [henc]
      rw [postEvents_eq_netErr ho 0 body comp m hreq hdo]
    unfold pushTraceData
    simp only [hevs, Bool.false_eq_true, if_false, hs1]
  · intro body comp tr code henc hreq hdo hbad
    have hcond : (decide (code < 200) || decide (300 ≤ code)) = true := by
      rcases hbad with h | h <;> simp [h]
    have hs1 : (sendSplunkEvents ho gz enc 0 evs dis).1 =
        some (.transient (httpErrMsg ho code)) := by
      unfold sendSplunkEvents
      simp only [henc]
      rw [postEvents_eq_resp ho 0 body comp code hreq hdo, if_pos hcond]
    unfold pushTraceData
    simp only [hevs, Bool.false_eq_true, if_false, hs1]
  · intro body comp tr code henc hreq hdo h200 h300
    have hcond : ¬ (decide (code < 200) || decide (300 ≤ code)) = true := by
      simp
      omega
    have hs1 : (sendSplunkEvents ho gz enc 0 evs dis).1 = none := by
      unfold sendSplunkEvents
      simp only [henc]
      rw [postEvents_eq_resp ho 0 body comp code hreq hdo, if_neg hcond]
    unfold pushTraceData
    simp only [hevs, Bool.false_eq_true, if_false, hs1]

theorem pushClassificationWitness :
    (pushMetricsData hoOkAll gzTest (fun s : String => .ok s) true
      ["ev"] 2 5).1 = (2, none) :=
  (pushClassification hoOkAll gzTest (fun s : String => .ok s) true
    ["ev"] ["ev"] 2 5 3 7 rfl rfl).2.2.2.2.1 "ev\n\r\n\r\n" false [] 200
    rfl rfl rfl (by decide) (by decide)

theorem postCalls_gzipPre (dis : Bool) (b : String) :
    postCalls (if sentComp dis b then [.gzipWrite b, .gzipFlush] else [])
      = [] := by
  split <;> rfl

theorem postCalls_gzipPost (dis : Bool) (b : String) :
    postCalls (if sentComp dis b then ([.gzipReset] : List Action) else [])
      = [] := by
  split <;> rfl

theorem reqErr_none_of_postOutcome_none (ho : HttpO) (i : Nat)
    (h : postOutcome ho i = none) : ho.reqErr i = none := by
  cases hreq : ho.reqErr i with
  | some e =>
    unfold postOutcome at h
    rw [postEvents_eq_reqErr ho i "" false e hreq] at h
    simp at h
  | none => rfl

theorem emptyChunkSkipped {β : Type} (ho : HttpO) (gz : GzipO) (dis : Bool)
    (nl : Nat → Nat) (sl : Nat → β) (j : Nat) :
    ∀ (pre post : List LogChunk) (i : Nat),
      pushLogLoop ho gz dis nl sl i (pre ++ ⟨j, none, ""⟩ :: post) =
        pushLogLoop ho gz dis nl sl i (pre ++ post)
  | [], post, i => by
    rw [List.nil_append, List.nil_append]
    simp [pushLogLoop]
  | c :: pre, post, i => by
    rw [List.cons_append, List.cons_append]
    rcases c with ⟨cj, cerr, cb⟩
    cases cerr with
    | some e => simp [pushLogLoop]
    | none =>
      by_cases hcb : cb.length = 0
      · have hstep : ∀ l, pushLogLoop ho gz dis nl sl i (⟨cj, none, cb⟩ :: l)
            = pushLogLoop ho gz dis nl sl i l := fun l => by
          simp [pushLogLoop, hcb]
        rw [hstep, hstep]
        exact emptyChunkSkipped ho gz dis nl sl j pre post i
      · by_cases hw : ¬ (decide (cb.length ≤ 1500) || dis) = true →
            gz.writeErr cb = none
        · rw [pushLogLoop_cons_ok ho gz dis nl sl i cj cb _ hcb hw,
            pushLogLoop_cons_ok ho gz dis nl sl i cj cb _ hcb hw]
          rcases hpe : postEvents ho i (sentBody gz dis cb) (sentComp dis cb)
            with ⟨r, tr⟩
          cases r with
          | some e => rfl
          | none =>
            rw [emptyChunkSkipped ho gz dis nl sl j pre post (i + 1)]
        · push_neg at hw
          obtain ⟨hcomp, hwne⟩ := hw
          rcases hwe : gz.writeErr cb with _ | e2
          · exact absurd hwe hwne
          · have hstep : ∀ l, pushLogLoop ho gz dis nl sl i
                (⟨cj, none, cb⟩ :: l)
                = ((nl cj, some (.permanent e2)), [.gzipWrite cb]) :=
              fun l => by
                simp only [pushLogLoop]
                rw [if_neg hcb, if_neg hcomp, hwe]
            rw [hstep, hstep]

theorem pushLogLoop_failAt {β : Type} (ho : HttpO) (gz : GzipO) (dis : Bool)
    (nl : Nat → Nat) (sl : Nat → β) (e : CErr) :
    ∀ (bufs : List String) (k j : Nat),
      k < bufs.length →
      (∀ b ∈ bufs, ¬ b.length = 0) →
      (∀ b ∈ bufs, gz.writeErr b = none) →
      (∀ t, t < k → postOutcome ho (j + t) = none) →
      ho.reqErr (j + k) = none →
      postOutcome ho (j + k) = some e →
      (pushLogLoop ho gz dis nl sl j (chunksFrom j bufs)).1 =
          (nl (j + k), some (.remainder e (sl (j + k)))) ∧
        postCalls (pushLogLoop ho gz dis nl sl j (chunksFrom j bufs)).2 =
          (bufs.take (k + 1)).map
            (fun b => (sentBody gz dis b, sentComp dis b))
  | [], k, j => by
    intro hk
    simp at hk
  | b :: bs, k, j => by
    intro hk hne hw hsucc hreq hfail
    have hb : ¬ b.length = 0 := hne b (List.mem_cons_self ..)
    have hwb : ¬ (decide (b.length ≤ 1500) || dis) = true →
        gz.writeErr b = none := fun _ => hw b (List.mem_cons_self ..)
    rw [show chunksFrom j (b :: bs)
        = ⟨j, none, b⟩ :: chunksFrom (j + 1) bs from rfl]
    rw [pushLogLoop_cons_ok ho gz dis nl sl j j b _ hb hwb]
    cases k with
    | zero =>
      have hpe1 : (postEvents ho j (sentBody gz dis b)
          (sentComp dis b)).1 = some e := by
        rw [postEvents_fst_eq_postOutcome]
        simpa using hfail
      rcases hpe : postEvents ho j (sentBody gz dis b) (sentComp dis b)
        with ⟨r, tr⟩
      rw [hpe] at hpe1
      simp only at hpe1
      subst hpe1
      have htr : postCalls tr = [(sentBody gz dis b, sentComp dis b)] := by
        have := postCalls_postEvents_of_reqOk ho j (sentBody gz dis b)
          (sentComp dis b) (by simpa using hreq)
        rw [hpe] at this
        exact this
      constructor
      · rfl
      · rw [show (((nl j, some (LogErr.remainder e (sl j))),
            (if sentComp dis b then [.gzipWrite b, .gzipFlush] else [])
              ++ tr) : (Nat × Option (LogErr β)) × List Action).2
            = (if sentComp dis b then [.gzipWrite b, .gzipFlush] else [])
              ++ tr from rfl]
        rw [postCalls_append, postCalls_gzipPre, htr]
        rfl
    | succ k2 =>
      have hs : (postEvents ho j (sentBody gz dis b)
          (sentComp dis b)).1 = none := by
        rw [postEvents_fst_eq_postOutcome]
        simpa using hsucc 0 (Nat.succ_pos k2)
      rcases hpe : postEvents ho j (sentBody gz dis b) (sentComp dis b)
        with ⟨r, tr⟩
      rw [hpe] at hs
      simp only at hs
      subst hs
      have htr : postCalls tr = [(sentBody gz dis b, sentComp dis b)] := by
        have hreq0 : ho.reqErr j = none := by
          have := reqErr_none_of_postOutcome_none ho j
            (by simpa using hsucc 0 (Nat.succ_pos k2))
          exact this
        have := postCalls_postEvents_of_reqOk ho j (sentBody gz dis b)
          (sentComp dis b) hreq0
        rw [hpe] at this
        exact this
      have IH := pushLogLoop_failAt ho gz dis nl sl e bs k2 (j + 1)
        (by simpa using Nat.lt_of_succ_lt_succ hk)
        (fun b2 hb2 => hne b2 (List.mem_cons_of_mem _ hb2))
        (fun b2 hb2 => hw b2 (List.mem_cons_of_mem _ hb2))
        (fun t ht => by
          have := hsucc (t + 1) (Nat.succ_lt_succ ht)
          rw [show j + 1 + t = j + (t + 1) by omega]
          exact this)
        (by rw [show j + 1 + k2 = j + (k2 + 1) by omega]; exact hreq)
        (by rw [show j + 1 + k2 = j + (k2 + 1) by omega]; exact hfail)
      constructor
      · simp only []
        rw [IH.1]
        rw [show j + 1 + k2 = j + (k2 + 1) by omega]
      · simp only []
        rw [postCalls_append, postCalls_append, postCalls_append,
          postCalls_gzipPre, postCalls_gzipPost, htr, IH.2]
        simp [List.take]

/-- C1: for a chunked logs push whose first k transmissions succeed and
whose transmission of chunk k fails (the request was built, the send or
the status failed), the push returns at once with the partial-failure
value pairing numLogs(k) — the number of log records from chunk k onward
— with subLogs(k), the sub-batch holding exactly the records of chunks
k..n and none of the records of chunks 0..k-1; the POST calls issued are
exactly those for chunks 0..k, so no chunk after k is transmitted.
numLogs/subLogs are modelled from the spec over the partition rss of the
batch's records into chunks (logdata_to_splunk.go is not under src/). -/
theorem logsPushFailureRemainder {α : Type} (ho : HttpO) (gz : GzipO)
    (dis : Bool) (rss : List (List α)) (bufs : List String) (k : Nat)
    (e : CErr)
    (hn : bufs.length = rss.length)
    (hk : k < bufs.length)
    (hne : ∀ b ∈ bufs, ¬ b.length = 0)
    (hw : ∀ b ∈ bufs, gz.writeErr b = none)
    (hsucc : ∀ t, t < k → postOutcome ho t = none)
    (hreq : ho.reqErr k = none)
    (hfail : postOutcome ho k = some e) :
    (pushLogData ho gz dis (specNumLogs rss) (specSubLogs rss)
        (chunksFrom 0 bufs)).1 =
      (specNumLogs rss k, some (.remainder e (specSubLogs rss k))) ∧
    postCalls (pushLogData ho gz dis (specNumLogs rss) (specSubLogs rss)
        (chunksFrom 0 bufs)).2 =
      (bufs.take (k + 1)).map
        (fun b => (sentBody gz dis b, sentComp dis b)) ∧
    specSubLogs rss k = (rss.drop k).flatten ∧
    rss.flatten = (rss.take k).flatten ++ specSubLogs rss k ∧
    specNumLogs rss k = (specSubLogs rss k).length := by
  have main := pushLogLoop_failAt ho gz dis (specNumLogs rss)
    (specSubLogs rss) e bufs k 0 hk hne hw
    (fun t ht => by simpa using hsucc t ht)
    (by simpa using hreq) (by simpa using hfail)
  refine ⟨?_, ?_, rfl, ?_, rfl⟩
  · unfold pushLogData
    simp only []
    rw [main.1]
    simp
  · unfold pushLogData
    simp only []
    rw [postCalls_append, postCalls_append, main.2]
    simp [postCalls]
  · conv_lhs => rw [← List.take_append_drop k rss]
    rw [List.flatten_append]
    rfl

theorem logsPushFailureRemainderWitness :
    (pushLogData hoFailLater gzTest true
        (specNumLogs [["x"], ["y"]]) (specSubLogs [["x"], ["y"]])
        (chunksFrom 0 ["a", "b"])).1 =
      (1, some (.remainder
        (.transient "HTTP 500 \x22Internal Server Error\x22") ["y"])) :=
  (logsPushFailureRemainder hoFailLater gzTest true [["x"], ["y"]]
    ["a", "b"] 1 (.transient "HTTP 500 \x22Internal Server Error\x22")
    rfl (by decide) (by decide) (fun b _ => rfl)
    (fun t ht => by
      have h0 : t = 0 := Nat.lt_one_iff.mp ht
      subst h0
      rfl)
    rfl (by decide)).1

theorem postEvents_trace_mem (ho : HttpO) (i : Nat) (b : String) (c : Bool) :
    ∀ a ∈ (postEvents ho i b c).2,
      a = .post b c ∨ a = .drainBody ∨ a = .closeBody := by
  intro a ha
  cases hreq : ho.reqErr i with
  | some e =>
    rw [postEvents_eq_reqErr ho i b c e hreq] at ha
    simp at ha
  | none =>
    cases hdo : ho.doRes i with
    | netErr m =>
      rw [postEvents_eq_netErr ho i b c m hreq hdo] at ha
      simp at ha
      exact Or.inl ha
    | resp code =>
      rw [postEvents_eq_resp ho i b c code hreq hdo] at ha
      simp at ha
      rcases ha with h | h | h
      · exact Or.inl h
      · exact Or.inr (Or.inl h)
      · exact Or.inr (Or.inr h)

theorem pushLogLoop_trace_mem {β : Type} (ho : HttpO) (gz : GzipO)
    (dis : Bool) (nl : Nat → Nat) (sl : Nat → β) :
    ∀ (chunks : List LogChunk) (i : Nat) (a : Action),
      a ∈ (pushLogLoop ho gz dis nl sl i chunks).2 →
      (∃ d, a = .gzipWrite d) ∨ a = .gzipFlush ∨ a = .gzipReset ∨
        (∃ b2 c2, a = .post b2 c2) ∨ a = .drainBody ∨ a = .closeBody
  | [], i, a => by
    intro ha
    simp [pushLogLoop] at ha
  | c :: rest, i, a => by
    intro ha
    rcases c with ⟨cj, cerr, cb⟩
    cases cerr with
    | some e => simp [pushLogLoop] at ha
    | none =>
      by_cases hcb : cb.length = 0
      · rw [show pushLogLoop ho gz dis nl sl i (⟨cj, none, cb⟩ :: rest)
              = pushLogLoop ho gz dis nl sl i rest by
            simp [pushLogLoop, hcb]] at ha
        exact pushLogLoop_trace_mem ho gz dis nl sl rest i a ha
      · by_cases hw : ¬ (decide (cb.length ≤ 1500) || dis) = true →
            gz.writeErr cb = none
        · rw [pushLogLoop_cons_ok ho gz dis nl sl i cj cb rest hcb hw] at ha
          rcases hpe : postEvents ho i (sentBody gz dis cb) (sentComp dis cb)
            with ⟨r, tr⟩
          rw [hpe] at ha
          have htr : ∀ x ∈ tr,
              x = .post (sentBody gz dis cb) (sentComp dis cb) ∨
                x = .drainBody ∨ x = .closeBody := by
            intro x hx
            have := postEvents_trace_mem ho i (sentBody gz dis cb)
              (sentComp dis cb) x (by rw [hpe]; exact hx)
            exact this
          have hpre : ∀ x ∈ (if sentComp dis cb then
              ([.gzipWrite cb, .gzipFlush] : List Action) else []),
              x = .gzipWrite cb ∨ x = .gzipFlush := by
            intro x hx
            split at hx <;> simp at hx
            exact hx
          cases r with
          | some e =>
            simp only [List.mem_append] at ha
            rcases ha with hx | hx
            · rcases hpre a hx with rfl | rfl
              · exact Or.inl ⟨cb, rfl⟩
              · exact Or.inr (Or.inl rfl)
            · rcases htr a hx with rfl | rfl | rfl
              · exact Or.inr (Or.inr (Or.inr (Or.inl ⟨_, _, rfl⟩)))
              · exact Or.inr (Or.inr (Or.inr (Or.inr (Or.inl rfl))))
              · exact Or.inr (Or.inr (Or.inr (Or.inr (Or.inr rfl))))
          | none =>
            simp only [List.mem_append] at ha
            rcases ha with ((hx | hx) | hx) | hx
            · rcases hpre a hx with rfl | rfl
              · exact Or.inl ⟨cb, rfl⟩
              · exact Or.inr (Or.inl rfl)
            · rcases htr a hx with rfl | rfl | rfl
              · exact Or.inr (Or.inr (Or.inr (Or.inl ⟨_, _, rfl⟩)))
              · exact Or.inr (Or.inr (Or.inr (Or.inr (Or.inl rfl))))
              · exact Or.inr (Or.inr (Or.inr (Or.inr (Or.inr rfl))))
            · revert hx
              split <;> intro hx <;> simp at hx
              exact Or.inr (Or.inr (Or.inl hx))
            · exact pushLogLoop_trace_mem ho gz dis nl sl rest (i + 1) a hx
        · push_neg at hw
          obtain ⟨hcomp, hwne⟩ := hw
          rcases hwe : gz.writeErr cb with _ | e2
          · exact absurd hwe hwne
          · rw [show pushLogLoop ho gz dis nl sl i (⟨cj, none, cb⟩ :: rest)
                = ((nl cj, some (.permanent e2)), [.gzipWrite cb]) by
              simp only [pushLogLoop]
              rw [if_neg hcb, if_neg hcomp, hwe]] at ha
            simp at ha
            exact Or.inl ⟨cb, ha⟩

/-- C7: pool discipline for the compression engines — in getReader, if
the pool is used at all the engine is borrowed first, reset before any
write, and the final action before returning (success or failure) is
returning it to the pool; in pushLogData the engine is borrowed once at
the start, reset before use, and returned at the very end on every path,
with no other borrow or return in between. -/
theorem compressorPoolDiscipline :
    (∀ (gz : GzipO) (b : String) (dis : Bool),
      (getReader gz b dis).2 = [] ∨
      ∃ mid, (getReader gz b dis).2
          = .poolGet :: .gzipReset :: mid ++ [.poolPut] ∧
        Action.poolGet ∉ mid ∧ Action.poolPut ∉ mid ∧
        Action.gzipReset ∉ mid) ∧
    (∀ {β : Type} (ho : HttpO) (gz : GzipO) (dis : Bool) (nl : Nat → Nat)
      (sl : Nat → β) (chunks : List LogChunk),
      ∃ mid, (pushLogData ho gz dis nl sl chunks).2
          = .wgAdd :: .poolGet :: .gzipReset :: mid
            ++ [.gzipClose, .poolPut, .wgDone] ∧
        Action.poolGet ∉ mid ∧ Action.poolPut ∉ mid) := by
  constructor
  · intro gz b dis
    unfold getReader
    split
    · cases hwe : gz.writeErr b with
      | some e =>
        right
        exact ⟨[.gzipWrite b], rfl, by simp, by simp, by simp⟩
      | none =>
        cases hce : gz.closeErr b with
        | some e2 =>
          right
          exact ⟨[.gzipWrite b, .gzipClose], rfl, by simp, by simp, by simp⟩
        | none =>
          right
          exact ⟨[.gzipWrite b, .gzipClose], rfl, by simp, by simp, by simp⟩
    · left
      rfl
  · intro β ho gz dis nl sl chunks
    refine ⟨(pushLogLoop ho gz dis nl sl 0 chunks).2, ?_, ?_, ?_⟩
    · unfold pushLogData
      simp
    · intro hmem
      rcases pushLogLoop_trace_mem ho gz dis nl sl chunks 0 _ hmem with
        ⟨d, h⟩ | h | h | ⟨b2, c2, h⟩ | h | h <;> simp at h
    · intro hmem
      rcases pushLogLoop_trace_mem ho gz dis nl sl chunks 0 _ hmem with
        ⟨d, h⟩ | h | h | ⟨b2, c2, h⟩ | h | h <;> simp at h

theorem runLife_append : ∀ (l1 : List LifeEvt) (n : Nat) (l2 : List LifeEvt),
    runLife n (l1 ++ l2) = (runLife n l1 && runLife (lifeAfter n l1) l2)
  | [], n, l2 => by simp [runLife, lifeAfter]
  | .pushBegin :: l1, n, l2 => by
    simp only [List.cons_append, runLife, lifeAfter]
    exact runLife_append l1 (n + 1) l2
  | .pushEnd :: l1, n, l2 => by
    cases n with
    | zero => simp only [List.cons_append, runLife, Bool.false_and]
    | succ n2 =>
      simp only [List.cons_append, runLife, lifeAfter]
      exact runLife_append l1 n2 l2
  | .stopReturn :: l1, n, l2 => by
    cases n with
    | zero =>
      simp only [List.cons_append, runLife, lifeAfter,
        show ((0 : Nat) == 0) = true from rfl, Bool.true_and]
      exact runLife_append l1 0 l2
    | succ m =>
      simp only [List.cons_append, runLife, lifeAfter,
        show ∀ k : Nat, ((k + 1 : Nat) == 0) = false from fun _ => rfl,
        Bool.false_and]

theorem runLife_count : ∀ (l : List LifeEvt) (n : Nat), runLife n l = true →
    n + l.count .pushBegin = lifeAfter n l + l.count .pushEnd
  | [], n => by simp [runLife, lifeAfter]
  | .pushBegin :: l, n => by
    intro h
    simp only [runLife] at h
    have IH := runLife_count l (n + 1) h
    rw [List.count_cons_self,
      List.count_cons_of_ne (by decide : (LifeEvt.pushEnd) ≠ .pushBegin)]
    simp only [lifeAfter]
    omega
  | .pushEnd :: l, n => by
    intro h
    cases n with
    | zero => simp [runLife] at h
    | succ n2 =>
      simp only [runLife] at h
      have IH := runLife_count l n2 h
      rw [List.count_cons_self,
        List.count_cons_of_ne (by decide : (LifeEvt.pushBegin) ≠ .pushEnd)]
      simp only [lifeAfter, Nat.add_sub_cancel]
      omega
  | .stopReturn :: l, n => by
    intro h
    simp only [runLife, Bool.and_eq_true] at h
    obtain ⟨hz, h2⟩ := h
    have hn : n = 0 := by simpa using hz
    subst hn
    have IH := runLife_count l 0 h2
    rw [List.count_cons_of_ne (by decide : (LifeEvt.pushBegin) ≠ .stopReturn),
      List.count_cons_of_ne (by decide : (LifeEvt.pushEnd) ≠ .stopReturn)]
    simp only [lifeAfter]
    omega

/-- C6: lifecycle — start does nothing and reports no error.  Every push
(metrics, traces, logs) registers with the WaitGroup as its very first
action and deregisters as its very last, so the registration spans every
chunk transmission in between.  Under the WaitGroup semantics of stop
(wg.Wait blocks until the in-flight count is zero), whenever a stop call
returns, the pushes begun before that return have all finished; and once
the in-flight count is zero a stop call returns immediately. -/
theorem lifecycleDrain :
    (start = none) ∧
    (∀ {α : Type} (ho : HttpO) (gz : GzipO) (enc : α → Except GoErr String)
      (dis : Bool) (dps : List α) (nd nm : Nat),
      ∃ mid, (pushMetricsData ho gz enc dis dps nd nm).2
          = .wgAdd :: mid ++ [.wgDone] ∧
        Action.wgAdd ∉ mid ∧ Action.wgDone ∉ mid) ∧
    (∀ {α : Type} (ho : HttpO) (gz : GzipO) (enc : α → Except GoErr String)
      (dis : Bool) (evs : List α) (nds sc : Nat),
      ∃ mid, (pushTraceData ho gz enc dis evs nds sc).2
          = .wgAdd :: mid ++ [.wgDone] ∧
        Action.wgAdd ∉ mid ∧ Action.wgDone ∉ mid) ∧
    (∀ {β : Type} (ho : HttpO) (gz : GzipO) (dis : Bool) (nl : Nat → Nat)
      (sl : Nat → β) (chunks : List LogChunk),
      ∃ mid, (pushLogData ho gz dis nl sl chunks).2
          = .wgAdd :: mid ++ [.wgDone] ∧
        Action.wgAdd ∉ mid ∧ Action.wgDone ∉ mid) ∧
    (∀ pre post2, runLife 0 (pre ++ .stopReturn :: post2) = true →
      pre.count .pushBegin = pre.count .pushEnd) ∧
    (∀ pre, runLife 0 pre = true → lifeAfter 0 pre = 0 →
      runLife 0 (pre ++ [.stopReturn]) = true) := by
  have hgr : ∀ (gz : GzipO) (b : String) (dis : Bool) (a : Action),
      a ∈ (getReader gz b dis).2 → a ≠ .wgAdd ∧ a ≠ .wgDone := by
    intro gz b dis a ha
    unfold getReader at ha
    revert ha
    split
    · cases hwe : gz.writeErr b with
      | some e =>
        intro ha
        simp at ha
        rcases ha with rfl | rfl | rfl | rfl <;> simp
      | none =>
        cases hce : gz.closeErr b with
        | some e2 =>
          intro ha
          simp at ha
          rcases ha with rfl | rfl | rfl | rfl | rfl <;> simp
        | none =>
          intro ha
          simp at ha
          rcases ha with rfl | rfl | rfl | rfl | rfl <;> simp
    · intro ha
      simp at ha
  have henc : ∀ {α : Type} (gz : GzipO) (enc : α → Except GoErr String)
      (evs : List α) (dis : Bool) (a : Action),
      a ∈ (encodeBodyEvents gz enc evs dis).2 →
      a ≠ .wgAdd ∧ a ≠ .wgDone := by
    intro α gz enc evs dis a ha
    unfold encodeBodyEvents at ha
    rcases hel : encodeLoop enc "" evs with e | buf
    · simp only [hel] at ha
      simp at ha
    · simp only [hel] at ha
      rcases hgr2 : getReader gz buf dis with ⟨⟨r, comp, err⟩, tr⟩
      cases err with
      | some e =>
        simp only [hgr2] at ha
        exact hgr gz buf dis a (by rw [hgr2]; exact ha)
      | none =>
        simp only [hgr2] at ha
        exact hgr gz buf dis a (by rw [hgr2]; exact ha)
  refine ⟨rfl, ?_, ?_, ?_, ?_, ?_⟩
  · intro α ho gz enc dis dps nd nm
    by_cases hemp : dps.isEmpty = true
    · have htrace : (pushMetricsData ho gz enc dis dps nd nm).2
          = [.wgAdd, .wgDone] := by
        simp [pushMetricsData, hemp]
      rw [htrace]
      exact ⟨[], rfl, by simp, by simp⟩
    · have hemp2 : dps.isEmpty = false := Bool.eq_false_iff.mpr hemp
      rcases he : encodeBody gz enc dps dis with ⟨res, tr⟩
      have htr : ∀ a ∈ tr, a ≠ Action.wgAdd ∧ a ≠ Action.wgDone := by
        intro a ha
        have he2 : encodeBodyEvents gz enc dps dis = (res, tr) := he
        exact henc gz enc dps dis a (by rw [he2]; exact ha)
      cases res with
      | error e =>
        have htrace : (pushMetricsData ho gz enc dis dps nd nm).2
            = .wgAdd :: tr ++ [.wgDone] := by
          unfold pushMetricsData
          simp only [hemp2, Bool.false_eq_true, if_false, he]
        rw [htrace]
        refine ⟨tr, rfl, ?_, ?_⟩ <;> intro hm
        · exact (htr _ hm).1 rfl
        · exact (htr _ hm).2 rfl
      | ok p =>
        rcases p with ⟨body, comp⟩
        rcases hreq : ho.reqErr 0 with _ | e
        · rcases hdo : ho.doRes 0 with m | code
          · have htrace : (pushMetricsData ho gz enc dis dps nd nm).2
                = .wgAdd :: tr ++ [.post body comp, .wgDone] := by
              unfold pushMetricsData
              simp only [hemp2, Bool.false_eq_true, if_false, he, hreq, hdo]
            rw [htrace]
            refine ⟨tr ++ [.post body comp], by simp, ?_, ?_⟩ <;>
              intro hm <;>
              rcases List.mem_append.mp hm with hm2 | hm2
            · exact (htr _ hm2).1 rfl
            · simp at hm2
            · exact (htr _ hm2).2 rfl
            · simp at hm2
          · have htrace : (pushMetricsData ho gz enc dis dps nd nm).2
                = .wgAdd :: tr
                  ++ [.post body comp, .drainBody, .closeBody, .wgDone] := by
              unfold pushMetricsData
              simp only [hemp2, Bool.false_eq_true, if_false, he, hreq, hdo]
              split <;> rfl
            rw [htrace]
            refine ⟨tr ++ [.post body comp, .drainBody, .closeBody],
              by simp, ?_, ?_⟩ <;> intro hm <;>
              rcases List.mem_append.mp hm with hm2 | hm2
            · exact (htr _ hm2).1 rfl
            · simp at hm2
            · exact (htr _ hm2).2 rfl
            · simp at hm2
        · have htrace : (pushMetricsData ho gz enc dis dps nd nm).2
              = .wgAdd :: tr ++ [.wgDone] := by
            unfold pushMetricsData
            simp only [hemp2, Bool.false_eq_true, if_false, he, hreq]
          rw [htrace]
          refine ⟨tr, rfl, ?_, ?_⟩ <;> intro hm
          · exact (htr _ hm).1 rfl
          · exact (htr _ hm).2 rfl
  · intro α ho gz enc dis evs nds sc
    by_cases hemp : evs.isEmpty = true
    · have htrace : (pushTraceData ho gz enc dis evs nds sc).2
          = [.wgAdd, .wgDone] := by
        simp [pushTraceData, hemp]
      rw [htrace]
      exact ⟨[], rfl, by simp, by simp⟩
    · have hemp2 : evs.isEmpty = false := Bool.eq_false_iff.mpr hemp
      rcases hs : sendSplunkEvents ho gz enc 0 evs dis with ⟨res, tr⟩
      have htr : ∀ a ∈ tr, a ≠ Action.wgAdd ∧ a ≠ Action.wgDone := by
        intro a ha
        have hmem : a ∈ (sendSplunkEvents ho gz enc 0 evs dis).2 := by
          rw [hs]
          exact ha
        unfold sendSplunkEvents at hmem
        rcases hee : encodeBodyEvents gz enc evs dis with ⟨res2, tr2⟩
        cases res2 with
        | error e =>
          simp only [hee] at hmem
          exact henc gz enc evs dis a (by rw [hee]; exact hmem)
        | ok p =>
          rcases p with ⟨body, comp⟩
          simp only [hee] at hmem
          have hmem2 : a ∈ tr2 ++ (postEvents ho 0 body comp).2 := hmem
          rcases List.mem_append.mp hmem2 with hm | hm
          · exact henc gz enc evs dis a (by rw [hee]; exact hm)
          · rcases postEvents_trace_mem ho 0 body comp a hm with
              rfl | rfl | rfl <;> simp
      have htrace : (pushTraceData ho gz enc dis evs nds sc).2
          = .wgAdd :: tr ++ [.wgDone] := by
        unfold pushTraceData
        simp only [hemp2, Bool.false_eq_true, if_false, hs]
        cases res <;> rfl
      rw [htrace]
      refine ⟨tr, rfl, ?_, ?_⟩ <;> intro hm
      · exact (htr _ hm).1 rfl
      · exact (htr _ hm).2 rfl
  · intro β ho gz dis nl sl chunks
    have hno : ∀ x ∈ (Action.poolGet :: Action.gzipReset ::
        (pushLogLoop ho gz dis nl sl 0 chunks).2
        ++ [Action.gzipClose, Action.poolPut]),
        x ≠ Action.wgAdd ∧ x ≠ Action.wgDone := by
      intro x hx
      rcases List.mem_cons.mp hx with rfl | hx2
      · exact ⟨by simp, by simp⟩
      rcases List.mem_cons.mp hx2 with rfl | hx3
      · exact ⟨by simp, by simp⟩
      rcases List.mem_append.mp hx3 with hx4 | hx4
      · rcases pushLogLoop_trace_mem ho gz dis nl sl chunks 0 _ hx4 with
          ⟨d, rfl⟩ | rfl | rfl | ⟨b2, c2, rfl⟩ | rfl | rfl <;>
          exact ⟨by simp, by simp⟩
      · rcases List.mem_cons.mp hx4 with rfl | hx5
        · exact ⟨by simp, by simp⟩
        rcases List.mem_cons.mp hx5 with rfl | hx6
        · exact ⟨by simp, by simp⟩
        simp at hx6
    refine ⟨Action.poolGet :: Action.gzipReset ::
      (pushLogLoop ho gz dis nl sl 0 chunks).2 ++ [.gzipClose, .poolPut],
      ?_, ?_, ?_⟩
    · unfold pushLogData
      simp
    · intro hm
      exact (hno _ hm).1 rfl
    · intro hm
      exact (hno _ hm).2 rfl
  · intro pre post2 hrun
    rw [runLife_append, Bool.and_eq_true] at hrun
    obtain ⟨h1, h2⟩ := hrun
    have hz : lifeAfter 0 pre = 0 := by
      simp only [runLife, Bool.and_eq_true] at h2
      simpa using h2.1
    have hc := runLife_count pre 0 h1
    omega
  · intro pre h1 hz
    rw [runLife_append, h1, hz]
    rfl
theorem lifecycleDrainWitness :
    List.count LifeEvt.pushBegin [LifeEvt.pushBegin, LifeEvt.pushEnd]
      = List.count LifeEvt.pushEnd [LifeEvt.pushBegin, LifeEvt.pushEnd] :=
  lifecycleDrain.2.2.2.2.1 [LifeEvt.pushBegin, LifeEvt.pushEnd] []
    (by decide)

/-- C9: an empty chunk (no terminal error, zero-length buffer) is
skipped: the push's result and complete action trace with the empty chunk
present are identical to those without it — no transmission is issued
for it, the dropped count is unaffected, and later chunks are processed
exactly as before. -/
theorem emptyChunkSkippedPush {β : Type} (ho : HttpO) (gz : GzipO)
    (dis : Bool) (nl : Nat → Nat) (sl : Nat → β) (j : Nat)
    (pre post : List LogChunk) :
    pushLogData ho gz dis nl sl (pre ++ ⟨j, none, ""⟩ :: post) =
      pushLogData ho gz dis nl sl (pre ++ post) := by
  unfold pushLogData
  rw [emptyChunkSkipped ho gz dis nl sl j pre post 0]

theorem splitOnSep_cons (c : Char) (l : List Char) (hc : c ≠ '\r') :
    splitOnSep (c :: l) = match splitOnSep l with
      | [] => [[c]]
      | s :: ss => (c :: s) :: ss := by
  rw [splitOnSep.eq_def]
  split
  · next heq => simp at heq
  · next heq =>
    obtain ⟨h1, h2⟩ := List.cons_eq_cons.mp heq
    exact absurd h1 hc
  · next heq =>
    obtain ⟨h1, h2⟩ := List.cons_eq_cons.mp heq
    subst h1
    subst h2
    rfl

theorem splitOnSep_append (s rest : List Char) (h : '\r' ∉ s) :
    splitOnSep (s ++ '\r' :: '\n' :: '\r' :: '\n' :: rest)
      = s :: splitOnSep rest := by
  induction s with
  | nil => rfl
  | cons c s2 ih =>
    have hc : c ≠ '\r' := fun hcc => h (hcc ▸ List.mem_cons_self ..)
    have hs : '\r' ∉ s2 := fun hm => h (List.mem_cons_of_mem _ hm)
    rw [List.cons_append, splitOnSep_cons c _ hc, ih hs]

theorem splitOnSep_segs :
    ∀ (segs : List (List Char)), (∀ seg ∈ segs, '\r' ∉ seg) →
      splitOnSep ((segs.map (fun seg => seg ++ sepChars)).flatten)
        = segs ++ [[]]
  | [] => fun _ => rfl
  | seg :: segs => by
    intro h
    simp only [List.map_cons, List.flatten_cons, List.append_assoc]
    rw [show sepChars ++ (List.map (fun s2 => s2 ++ sepChars) segs).flatten
        = '\r' :: '\n' :: '\r' :: '\n' ::
          (List.map (fun s2 => s2 ++ sepChars) segs).flatten from rfl]
    rw [splitOnSep_append _ _ (h seg (List.mem_cons_self ..))]
    rw [splitOnSep_segs segs (fun s2 hs2 => h s2 (List.mem_cons_of_mem _ hs2))]
    rfl

theorem filterMap_some_of (g : α → Option α) :
    ∀ l : List α, (∀ e ∈ l, g e = some e) → l.filterMap g = l
  | [] => fun _ => rfl
  | e :: l => by
    intro h
    rw [List.filterMap_cons, h e (List.mem_cons_self ..),
      filterMap_some_of g l (fun x hx => h x (List.mem_cons_of_mem _ hx))]

theorem encodeLoop_pure (js : α → String) :
    ∀ (evs : List α) (buf : String),
      encodeLoop (fun e => .ok (js e)) buf evs
        = .ok (String.mk (buf.data ++ segsBody js evs))
  | [], buf => by
    simp only [encodeLoop, segsBody, List.map_nil, List.flatten_nil,
      List.append_nil]
  | e :: evs, buf => by
    simp only [encodeLoop]
    rw [encodeLoop_pure js evs (buf ++ js e ++ "\n" ++ "\r\n\r\n")]
    congr 2
    simp only [String.data_append, segsBody, List.map_cons,
      List.flatten_cons, List.append_assoc]
    rfl

theorem segsBody_eq (js : α → String) (evs : List α) :
    segsBody js evs
      = ((evs.map (fun e => (js e).data ++ ['\n'])).map
          (fun seg => seg ++ sepChars)).flatten := by
  unfold segsBody
  rw [List.map_map]
  congr 1
  apply List.map_congr_left
  intro e _
  simp [List.append_assoc]

theorem getReader_ok (gz : GzipO) (b : String) (dis : Bool)
    (hw : gz.writeErr b = none) (hc : gz.closeErr b = none) :
    getReader gz b dis =
      if (!dis && decide (b.length > 1500)) = true then
        ((gz.compress b, true, none),
          [.poolGet, .gzipReset, .gzipWrite b, .gzipClose, .poolPut])
      else ((b, false, none), []) := by
  by_cases hcond : (!dis && decide (b.length > 1500)) = true
  · rw [if_pos hcond]
    unfold getReader
    rw [if_pos hcond]
    simp only [hw, hc]
  · rw [if_neg hcond]
    unfold getReader
    rw [if_neg hcond]

theorem gzTest_decompress_inv (s : String) :
    gzTest.decompress (gzTest.compress s) = s := by
  show String.mk ((("G" : String) ++ s).data.drop 1) = s
  rw [String.data_append]
  rfl

/-- C3 (amended): the wire body built by encodeBodyEvents is the
concatenation, in input order, of each event's JSON serialization
followed by the newline json.Encoder.Encode appends and then the two-CRLF
separator (not the bare serialization plus separator the claim states);
the whole buffer is then either sent raw or gzipped whole.  Decoding —
un-gzipping if compressed, splitting on the separator, dropping the empty
trailing piece and parsing each piece as one JSON document (the parser
absorbing the trailing newline) — yields back the original ordered event
sequence. -/
theorem encodeBodyRoundTrip {α : Type} (gz : GzipO) (js : α → String)
    (dec : String → Option α) (evs : List α) (dis : Bool)
    (hgw : ∀ s, gz.writeErr s = none) (hgc : ∀ s, gz.closeErr s = none)
    (hgi : ∀ s, gz.decompress (gz.compress s) = s)
    (hcr : ∀ e ∈ evs, '\r' ∉ (js e).data)
    (hdec : ∀ e ∈ evs, dec (js e ++ "\n") = some e) :
    ∃ body comp,
      (encodeBodyEvents gz (fun e => .ok (js e)) evs dis).1
        = .ok (body, comp) ∧
      encodeLoop (fun e => .ok (js e)) "" evs
        = .ok (String.mk (segsBody js evs)) ∧
      segsBody js evs
        = (evs.map (fun e => (js e).data ++ '\n' :: sepChars)).flatten ∧
      body = (if comp then gz.compress (String.mk (segsBody js evs))
        else String.mk (segsBody js evs)) ∧
      specDecode dec (if comp then gz.decompress body else body) = evs := by
  have hel : encodeLoop (fun e => .ok (js e)) "" evs
      = .ok (String.mk (segsBody js evs)) := by
    rw [encodeLoop_pure js evs ""]
    rfl
  have hraw : specDecode dec (String.mk (segsBody js evs)) = evs := by
    unfold specDecode
    rw [show (String.mk (segsBody js evs)).data = segsBody js evs from rfl]
    rw [segsBody_eq js evs]
    rw [splitOnSep_segs (evs.map (fun e => (js e).data ++ ['\n'])) ?hseg]
    case hseg =>
      intro seg hseg
      rcases List.mem_map.mp hseg with ⟨e, he, rfl⟩
      intro hmem
      rcases List.mem_append.mp hmem with hm | hm
      · exact hcr e he hm
      · simp at hm
    rw [List.dropLast_concat]
    rw [List.filterMap_map]
    exact filterMap_some_of _ evs (fun e he => hdec e he)
  set raw := String.mk (segsBody js evs) with hrawdef
  have hgr := getReader_ok gz raw dis (hgw raw) (hgc raw)
  by_cases hcond : (!dis && decide (raw.length > 1500)) = true
  · refine ⟨gz.compress raw, true, ?_, hel, rfl, by rw [if_pos rfl], ?_⟩
    · unfold encodeBodyEvents
      simp only [hel, hgr, if_pos hcond]
    · rw [if_pos rfl, hgi raw]
      exact hraw
  · refine ⟨raw, false, ?_, hel, rfl, by rw [if_neg (by simp)], ?_⟩
    · unfold encodeBodyEvents
      simp only [hel, hgr, if_neg hcond]
    · rw [if_neg (by simp)]
      exact hraw

theorem encodeBodyRoundTripWitness :
    ∃ body comp,
      (encodeBodyEvents gzTest (fun s : String => .ok s) ["A"] true).1
        = .ok (body, comp) ∧
      encodeLoop (fun s : String => .ok s) "" ["A"]
        = .ok (String.mk (segsBody (fun s : String => s) ["A"])) ∧
      segsBody (fun s : String => s) ["A"]
        = (["A"].map
            (fun e : String => e.data ++ '\n' :: sepChars)).flatten ∧
      body = (if comp then
          gzTest.compress (String.mk (segsBody (fun s : String => s) ["A"]))
        else String.mk (segsBody (fun s : String => s) ["A"])) ∧
      specDecode (fun s => some (String.mk s.data.dropLast))
        (if comp then gzTest.decompress body else body) = ["A"] :=
  encodeBodyRoundTrip gzTest (fun s : String => s)
    (fun s => some (String.mk s.data.dropLast)) ["A"] true
    (fun _ => rfl) (fun _ => rfl) gzTest_decompress_inv
    (by decide) (by decide)

/-- C3 (counterexample to the claim as stated): with an event whose JSON
serialization is the single byte A, the encoded body is A, newline,
CRLFCRLF — json.Encoder.Encode appends a newline — and not the claimed
concatenation of the serialization directly followed by the two-CRLF
separator. -/
theorem encodeSeparatorCounterexample :
    (encodeBodyEvents gzTest (fun s : String => .ok s) ["A"] true).1
      = .ok ("A\n\r\n\r\n", false) ∧
    ("A\n\r\n\r\n" : String) ≠ "A" ++ "\r\n\r\n" :=
  ⟨rfl, by decide⟩

end SplunkHec
